import Mathlib

/-!
Shallow embedding of the Function Point Analysis engine (class FPAnalysis of
the TypeScript source).  Strings are modelled as Lean `String` / `List Char`;
the two global regexes (`tableRegex`, `columnRegex`) are modelled by explicit
left-to-right scanners with the exact semantics of the JavaScript patterns
`CREATE TABLE IF NOT EXISTS\s+"([\w_]+)"\s*\(([\s\S]+?)\);` and
`"([\w_]+)"\s+([\w]+)`; mutation of the `FPAnalysis` object is modelled by
explicit state passing.
-/

namespace FPA

/-- JS `\w` character class (`[A-Za-z0-9_]`). -/
def isWordChar (c : Char) : Bool :=
  decide ((('a' ≤ c ∧ c ≤ 'z') ∨ ('A' ≤ c ∧ c ≤ 'Z') ∨ ('0' ≤ c ∧ c ≤ '9') ∨ c = '_'))

/-- JS `\s` character class (ASCII part; the source SQL is ASCII). -/
def isSpaceChar (c : Char) : Bool :=
  decide (c = ' ' ∨ c = '\t' ∨ c = '\n' ∨ c = '\r' ∨ c = '\x0b' ∨ c = '\x0c')

/-- Maximal run of `\w` characters at the head (greedy `[\w_]+`, which never
needs to backtrack because the characters that may follow are not word
characters). -/
def scanWord : List Char → List Char × List Char
  | [] => ([], [])
  | c :: r =>
    if isWordChar c then
      let p := scanWord r
      (c :: p.1, p.2)
    else ([], c :: r)

/-- Maximal run of `\s` characters at the head (greedy `\s+` / `\s*`). -/
def scanSpace : List Char → List Char × List Char
  | [] => ([], [])
  | c :: r =>
    if isSpaceChar c then
      let p := scanSpace r
      (c :: p.1, p.2)
    else ([], c :: r)

/-- Match one literal character. -/
def matchChar (c : Char) : List Char → Option (List Char)
  | [] => none
  | d :: s => if d = c then some s else none

/-- Match a literal string. -/
def matchLit : List Char → List Char → Option (List Char)
  | [], s => some s
  | _ :: _, [] => none
  | c :: p, d :: s => if d = c then matchLit p s else none

/-- The fixed literal part of `tableRegex`. -/
def tableLit : List Char := "CREATE TABLE IF NOT EXISTS".data

/-- Split at the first occurrence of the two-character sequence `);`:
returns the text before it and the text after it. -/
def findCS : List Char → Option (List Char × List Char)
  | [] => none
  | [_] => none
  | c :: d :: r =>
    if c = ')' ∧ d = ';' then some ([], r)
    else
      match findCS (d :: r) with
      | none => none
      | some p => some (c :: p.1, p.2)

/-- The lazy group `([\s\S]+?)` followed by `\);`: the body is the shortest
nonempty prefix such that `);` follows immediately. -/
def bodySplit : List Char → Option (List Char × List Char)
  | [] => none
  | c :: r =>
    match findCS r with
    | none => none
    | some p => some (c :: p.1, p.2)

/-- `columnRegex` anchored at the current position:
`"([\w_]+)"\s+([\w]+)`.  Returns (name, dtype, rest-after-match). -/
def matchColAt (s : List Char) : Option (List Char × List Char × List Char) :=
  match matchChar '"' s with
  | none => none
  | some s1 =>
    let pn := scanWord s1
    if pn.1 = [] then none
    else
      match matchChar '"' pn.2 with
      | none => none
      | some s2 =>
        let ps := scanSpace s2
        if ps.1 = [] then none
        else
          let pd := scanWord ps.2
          if pd.1 = [] then none else some (pn.1, pd.1, pd.2)

/-- `tableRegex` anchored at the current position:
`CREATE TABLE IF NOT EXISTS\s+"([\w_]+)"\s*\(([\s\S]+?)\);`.
Returns (table name, body, rest-after-match). -/
def matchTableAt (s : List Char) : Option (List Char × List Char × List Char) :=
  match matchLit tableLit s with
  | none => none
  | some s1 =>
    let sp := scanSpace s1
    if sp.1 = [] then none
    else
      match matchChar '"' sp.2 with
      | none => none
      | some s2 =>
        let pn := scanWord s2
        if pn.1 = [] then none
        else
          match matchChar '"' pn.2 with
          | none => none
          | some s3 =>
            let sp2 := scanSpace s3
            match matchChar '(' sp2.2 with
            | none => none
            | some s4 =>
              match bodySplit s4 with
              | none => none
              | some bd => some (pn.1, bd.1, bd.2)

/-- The `while exec` loop over `columnRegex`: all non-overlapping matches,
left to right (fuelled; `fuel ≥ length` makes the fuel irrelevant). -/
def columnsF : Nat → List Char → List (List Char × List Char)
  | 0, _ => []
  | fuel + 1, s =>
    match s with
    | [] => []
    | c :: r =>
      match matchColAt (c :: r) with
      | some x => (x.1, x.2.1) :: columnsF fuel x.2.2
      | none => columnsF fuel r

/-- All `columnRegex` matches of a table body. -/
def columns (s : List Char) : List (List Char × List Char) := columnsF s.length s

/-- The `while exec` loop over `tableRegex`: all non-overlapping
(name, body) matches, left to right. -/
def tablesF : Nat → List Char → List (List Char × List Char)
  | 0, _ => []
  | fuel + 1, s =>
    match s with
    | [] => []
    | c :: r =>
      match matchTableAt (c :: r) with
      | some x => (x.1, x.2.1) :: tablesF fuel x.2.2
      | none => tablesF fuel r

/-- All `tableRegex` matches of an SQL script. -/
def tables (s : List Char) : List (List Char × List Char) := tablesF s.length s

/-- enum EPType. -/
inductive EPType
  | EI
  | EO
  | EQ
deriving DecidableEq

/-- enum LFType. -/
inductive LFType
  | ILF
  | EIF
  | RET
deriving DecidableEq

/-- interface DataElement. -/
structure DataElement where
  name : String
  dtype : String
deriving DecidableEq

/-- interface LogicalFile (optional fields become `Option`). -/
structure LogicalFile where
  name : String
  type : LFType
  parentName : Option String
  dataElements : List DataElement
  description : Option String
  FPs : Option Nat
deriving DecidableEq

/-- The `{name, logicalFileName}` entries of an ElementaryProcess. -/
structure EPDataElement where
  name : String
  logicalFileName : String
deriving DecidableEq

/-- interface ElementaryProcess. -/
structure ElementaryProcess where
  id : String
  description : String
  type : EPType
  dataElements : List EPDataElement
  FPs : Option Nat
deriving DecidableEq

/-- The private state of class FPAnalysis. -/
structure FPAnalysis where
  logicalFiles : List LogicalFile
  elementaryProcesses : List ElementaryProcess
deriving DecidableEq

/-- function ILFContribution (the `default` branch throws and is unreachable
for the three complexity strings the engine produces; it is modelled as 0). -/
def ILFContribution (complexity : String) : Nat :=
  if complexity = "Low" then 7
  else if complexity = "Average" then 10
  else if complexity = "High" then 15
  else 0

/-- function EIFContribution. -/
def EIFContribution (complexity : String) : Nat :=
  if complexity = "Low" then 5
  else if complexity = "Average" then 7
  else if complexity = "High" then 10
  else 0

/-- function EIandEOContribution. -/
def EIandEOContribution (complexity : String) : Nat :=
  if complexity = "Low" then 3
  else if complexity = "Average" then 4
  else if complexity = "High" then 6
  else 0

/-- function EQContribution. -/
def EQContribution (complexity : String) : Nat :=
  if complexity = "Low" then 4
  else if complexity = "Average" then 5
  else if complexity = "High" then 7
  else 0

/-- FPAnalysis.readSQL: resets `logicalFiles`, then pushes one LogicalFile per
`tableRegex` match (type ILF, no description) whose dataElements are the
`columnRegex` matches of the captured body. -/
def readSQL (sql : String) (a : FPAnalysis) : FPAnalysis :=
  { a with
    logicalFiles :=
      (tables sql.data).map (fun nb =>
        { name := ⟨nb.1⟩
          type := LFType.ILF
          parentName := none
          dataElements := (columns nb.2).map (fun nd => ⟨⟨nd.1⟩, ⟨nd.2⟩⟩)
          description := none
          FPs := none }) }

/-- FPAnalysis.addLF: skips (warn) when a LogicalFile of the same name exists,
otherwise pushes. -/
def addLF (name : String) (type : LFType) (attributes : List DataElement)
    (description : Option String) (parentName : Option String)
    (a : FPAnalysis) : FPAnalysis :=
  if a.logicalFiles.any (fun lf => lf.name == name) then a
  else
    { a with
      logicalFiles := a.logicalFiles ++
        [{ name := name, type := type, parentName := parentName,
           dataElements := attributes, description := description, FPs := none }] }

/-- FPAnalysis.removeLF: first filters every EP's dataElements with
`lf.name !== name` (the predicate reads the entry's `name` field), then keeps
only the LogicalFiles with `lf.type !== RET && lf.parentName !== name`, then
drops the LogicalFile called `name`. -/
def removeLF (name : String) (a : FPAnalysis) : FPAnalysis :=
  { a with
    elementaryProcesses :=
      a.elementaryProcesses.map (fun ep =>
        { ep with dataElements := ep.dataElements.filter (fun lf => lf.name ≠ name) })
    logicalFiles :=
      (a.logicalFiles.filter
        (fun lf => lf.type ≠ LFType.RET ∧ lf.parentName ≠ some name)).filter
        (fun lf => lf.name ≠ name) }

/-- The reference check of FPAnalysis.addEP: for each entry the named
LogicalFile must be found; the inner loop then compares the file's own
dataElements against themselves (as in the source). -/
def epRefsValid (lfs : List LogicalFile) (des : List EPDataElement) : Bool :=
  des.all (fun de =>
    match lfs.find? (fun lf => lf.name == de.logicalFileName) with
    | none => false
    | some lf =>
      lf.dataElements.all (fun d => lf.dataElements.any (fun e => e.name == d.name)))

/-- Count of EPs of one type (`this.elementaryProcesses.filter(...).length`). -/
def countEPsOfType (a : FPAnalysis) (t : EPType) : Nat :=
  (a.elementaryProcesses.filter (fun ep => ep.type == t)).length

/-- The enum string of an EPType ("EI" / "EO" / "EQ"), as characters. -/
def epTypeChars : EPType → List Char
  | EPType.EI => ['E', 'I']
  | EPType.EO => ['E', 'O']
  | EPType.EQ => ['E', 'Q']

/-- One decimal digit character. -/
def digitChar : Nat → Char
  | 0 => '0'
  | 1 => '1'
  | 2 => '2'
  | 3 => '3'
  | 4 => '4'
  | 5 => '5'
  | 6 => '6'
  | 7 => '7'
  | 8 => '8'
  | _ => '9'

/-- Decimal rendering of a natural number (the JS `${n}` conversion),
fuelled to stay structural. -/
def natToDecimalAux : Nat → Nat → List Char
  | 0, _ => []
  | fuel + 1, n =>
    if n < 10 then [digitChar n]
    else natToDecimalAux fuel (n / 10) ++ [digitChar (n % 10)]

/-- Decimal rendering of a natural number. -/
def natToDecimal (n : Nat) : List Char := natToDecimalAux (n + 1) n

/-- The template literal `` `${type}_${count + 1}` `` of FPAnalysis.addEP. -/
def mkEPId (t : EPType) (n : Nat) : String := ⟨epTypeChars t ++ '_' :: natToDecimal n⟩

/-- FPAnalysis.addEP: aborts (error, state unchanged) when the reference check
fails, otherwise pushes a new EP with id `` `${type}_${count + 1}` ``. -/
def addEP (description : String) (t : EPType) (dataElements : List EPDataElement)
    (a : FPAnalysis) : FPAnalysis :=
  if epRefsValid a.logicalFiles dataElements then
    { a with
      elementaryProcesses := a.elementaryProcesses ++
        [{ id := mkEPId t (countEPsOfType a t + 1), description := description,
           type := t, dataElements := dataElements, FPs := none }] }
  else a

/-- FPAnalysis.removeEP. -/
def removeEP (id : String) (a : FPAnalysis) : FPAnalysis :=
  { a with elementaryProcesses := a.elementaryProcesses.filter (fun ep => ep.id ≠ id) }

/-- The complexity string computed for one non-RET LogicalFile by
FPAnalysis.evaluateFPs (nRETs starts at 1 for the file itself; RETsDTs sums
the dataElements of the RET children). -/
def lfComplexityStr (lfs : List LogicalFile) (lf : LogicalFile) : String :=
  let rets := lfs.filter (fun o => o.type == LFType.RET && o.parentName == some lf.name)
  let nRETs := 1 + rets.length
  let totalDTs := lf.dataElements.length + (rets.map (fun o => o.dataElements.length)).sum
  if nRETs = 1 then
    if totalDTs < 50 then "Low" else "Average"
  else if nRETs ≤ 5 then
    let c1 := if totalDTs < 20 then "Low" else "Average"
    if totalDTs < 50 then c1 else "High"
  else if totalDTs < 50 then "Average"
  else "High"

/-- The per-LogicalFile step of FPAnalysis.evaluateFPs: every FPs field is
first reset to 0 and RETs are then skipped, so a RET keeps FPs = 0. -/
def evalLF (lfs : List LogicalFile) (lf : LogicalFile) : LogicalFile :=
  if lf.type = LFType.RET then { lf with FPs := some 0 }
  else
    { lf with
      FPs := some (if lf.type = LFType.ILF
        then ILFContribution (lfComplexityStr lfs lf)
        else EIFContribution (lfComplexityStr lfs lf)) }

/-- The complexity string computed for one ElementaryProcess by
FPAnalysis.evaluateFPs (`nLFs = new Set(map logicalFileName).size`,
`nDETs = dataElements.length`). -/
def epComplexityStr (ep : ElementaryProcess) : String :=
  let nLFs := (ep.dataElements.map (fun de => de.logicalFileName)).dedup.length
  let nDETs := ep.dataElements.length
  if ep.type = EPType.EI then
    if nLFs = 1 then
      if nDETs < 5 then "Low" else "Average"
    else if nLFs = 2 then
      if nDETs < 5 then "Low" else if nDETs < 15 then "Average" else "High"
    else if nDETs < 15 then "Average"
    else "High"
  else
    if nLFs = 1 then
      if nDETs < 20 then "Low" else "Average"
    else if nLFs = 2 then
      if nDETs < 7 then "Low" else if nDETs < 20 then "Average" else "High"
    else if nDETs < 20 then "Average"
    else "High"

/-- The per-ElementaryProcess step of FPAnalysis.evaluateFPs. -/
def evalEP (ep : ElementaryProcess) : ElementaryProcess :=
  { ep with
    FPs := some (if ep.type = EPType.EQ
      then EQContribution (epComplexityStr ep)
      else EIandEOContribution (epComplexityStr ep)) }

/-- FPAnalysis.evaluateFPs: recomputes every FPs field from scratch. -/
def evaluateFPs (a : FPAnalysis) : FPAnalysis :=
  { logicalFiles := a.logicalFiles.map (fun lf => evalLF a.logicalFiles lf)
    elementaryProcesses := a.elementaryProcesses.map evalEP }

/-- FPAnalysis.getTotalFPs: the two `reduce` folds, `lf.FPs || 0`. -/
def getTotalFPs (a : FPAnalysis) : Nat :=
  a.logicalFiles.foldl (fun sum lf => sum + lf.FPs.getD 0) 0 +
    a.elementaryProcesses.foldl (fun sum ep => sum + ep.FPs.getD 0) 0

/-- The structural snapshot produced by FPAnalysis.exportAsJSON (the JSON
round-trip through stringify/parse is a deep value copy). -/
structure ExportedModel where
  logicalFiles : List LogicalFile
  elementaryProcesses : List ElementaryProcess
deriving DecidableEq

/-- FPAnalysis.exportAsJSON. -/
def exportAsJSON (a : FPAnalysis) : ExportedModel :=
  { logicalFiles := a.logicalFiles, elementaryProcesses := a.elementaryProcesses }

/-- FPAnalysis.importFromJSON: replaces both collections wholesale. -/
def importFromJSON (data : ExportedModel) (a : FPAnalysis) : FPAnalysis :=
  { a with
    logicalFiles := data.logicalFiles
    elementaryProcesses := data.elementaryProcesses }

/-! ## Specification-side definitions

These are written from the words of the specification (complexity tables,
statement shapes), to be compared with the engine above. -/

/-- Complexity tier, as named by the specification. -/
inductive Tier
  | Low
  | Average
  | High
deriving DecidableEq

/-- Spec: `nRETs = 1 + (number of RET-type LogicalFiles whose parentName
equals this file's name)`. -/
def specNRETs (lfs : List LogicalFile) (name : String) : Nat :=
  1 + (lfs.filter (fun o => o.type == LFType.RET && o.parentName == some name)).length

/-- Spec: `totalDETs = own dataElements count + sum of dataElements counts of
those RETs`. -/
def specTotalDETs (lfs : List LogicalFile) (lf : LogicalFile) : Nat :=
  lf.dataElements.length +
    ((lfs.filter (fun o => o.type == LFType.RET && o.parentName == some lf.name)).map
      (fun o => o.dataElements.length)).sum

/-- Spec tier table for Logical Files: nRETs = 1 → Low under 50 else Average
(never High); 2–5 → Low under 20, Average under 50, else High; ≥6 → Average
under 50 else High. -/
def specLFTier (nRETs totalDETs : Nat) : Tier :=
  if nRETs = 1 then
    if totalDETs < 50 then Tier.Low else Tier.Average
  else if 2 ≤ nRETs ∧ nRETs ≤ 5 then
    if totalDETs < 20 then Tier.Low
    else if totalDETs < 50 then Tier.Average
    else Tier.High
  else
    if totalDETs < 50 then Tier.Average else Tier.High

/-- Spec contribution tables: ILF Low=7/Average=10/High=15,
EIF Low=5/Average=7/High=10 (a RET gets no score of its own). -/
def specLFScore (t : LFType) (tier : Tier) : Nat :=
  match t, tier with
  | LFType.ILF, Tier.Low => 7
  | LFType.ILF, Tier.Average => 10
  | LFType.ILF, Tier.High => 15
  | LFType.EIF, Tier.Low => 5
  | LFType.EIF, Tier.Average => 7
  | LFType.EIF, Tier.High => 10
  | LFType.RET, _ => 0

/-- Spec: `nLFs` = number of distinct logicalFileName values referenced. -/
def specNLFs (ep : ElementaryProcess) : Nat :=
  (ep.dataElements.map (fun de => de.logicalFileName)).dedup.length

/-- Spec: `nDETs` = total count of dataElements entries (not deduplicated). -/
def specNDETs (ep : ElementaryProcess) : Nat := ep.dataElements.length

/-- Spec tier table for Elementary Processes (EI thresholds 5/5–15/15;
EO and EQ thresholds 20/7–20/20). -/
def specEPTier (t : EPType) (nLFs nDETs : Nat) : Tier :=
  match t with
  | EPType.EI =>
    if nLFs = 1 then
      if nDETs < 5 then Tier.Low else Tier.Average
    else if nLFs = 2 then
      if nDETs < 5 then Tier.Low
      else if nDETs < 15 then Tier.Average
      else Tier.High
    else
      if nDETs < 15 then Tier.Average else Tier.High
  | _ =>
    if nLFs = 1 then
      if nDETs < 20 then Tier.Low else Tier.Average
    else if nLFs = 2 then
      if nDETs < 7 then Tier.Low
      else if nDETs < 20 then Tier.Average
      else Tier.High
    else
      if nDETs < 20 then Tier.Average else Tier.High

/-- Spec contribution tables: EI and EO share Low=3/Average=4/High=6;
EQ uses Low=4/Average=5/High=7. -/
def specEPScore (t : EPType) (tier : Tier) : Nat :=
  match t, tier with
  | EPType.EQ, Tier.Low => 4
  | EPType.EQ, Tier.Average => 5
  | EPType.EQ, Tier.High => 7
  | _, Tier.Low => 3
  | _, Tier.Average => 4
  | _, Tier.High => 6

/-- Decimal value of a digit character. -/
def digitVal (c : Char) : Nat := c.toNat - 48

/-- Decimal value of a digit string (used to invert `natToDecimal`). -/
def decimalVal (l : List Char) : Nat := l.foldl (fun a c => a * 10 + digitVal c) 0

/-- A sequence of addEP calls, folded over the store. -/
def addEPOps (ops : List (String × EPType × List EPDataElement)) (a : FPAnalysis) :
    FPAnalysis :=
  ops.foldl (fun st op => addEP op.1 op.2.1 op.2.2 st) a

/-- The id-assignment invariant of the store: for every EP type the ids of
that type, in insertion order, are exactly `<type>_1 … <type>_k` where `k` is
the current count of that type. -/
def epIdInv (a : FPAnalysis) : Prop :=
  ∀ t : EPType,
    ((a.elementaryProcesses.filter (fun e => e.type == t)).map (fun e => e.id))
      = (List.range (countEPsOfType a t)).map (fun j => mkEPId t (j + 1))

/-- One column occurrence inside a CREATE TABLE body: a quoted identifier,
one space, a bare word, then arbitrary following text up to the next column. -/
structure SqlCol where
  name : List Char
  dtype : List Char
  gap : List Char
deriving DecidableEq

/-- One well-formed `CREATE TABLE IF NOT EXISTS "<identifier>" ( <body> );`
statement, with the body given by its column occurrences. -/
structure SqlStmt where
  name : List Char
  lead : List Char
  cols : List SqlCol
deriving DecidableEq

/-- Renders the column occurrences of a body. -/
def renderCols : List SqlCol → List Char
  | [] => []
  | c :: rest => '"' :: c.name ++ '"' :: ' ' :: (c.dtype ++ c.gap ++ renderCols rest)

/-- Renders a statement body. -/
def renderBody (s : SqlStmt) : List Char := s.lead ++ renderCols s.cols

/-- The characters of a statement after the CREATE TABLE IF NOT EXISTS
literal. -/
def stmtTail (s : SqlStmt) : List Char :=
  ' ' :: '"' :: s.name ++ '"' :: ' ' :: '(' :: (renderBody s ++ [')', ';'])

/-- Renders a whole statement. -/
def stmtToChars (s : SqlStmt) : List Char := tableLit ++ stmtTail s

/-- Renders statements interleaved with separator text. -/
def chainSQL : List (SqlStmt × List Char) → List Char
  | [] => []
  | it :: rest => stmtToChars it.1 ++ it.2 ++ chainSQL rest

/-- A full SQL input: leading text, then statements with trailing text. -/
def renderSQL (sep0 : List Char) (items : List (SqlStmt × List Char)) : String :=
  ⟨sep0 ++ chainSQL items⟩

/-- A nonempty all-word-character token. -/
def wordOK (w : List Char) : Bool := !w.isEmpty && w.all isWordChar

/-- The head character, if any, is not a word character. -/
def headNotWord : List Char → Bool
  | [] => true
  | c :: _ => !isWordChar c

/-- The head character, if any, is not a whitespace character. -/
def headNotSpace : List Char → Bool
  | [] => true
  | c :: _ => !isSpaceChar c

/-- Text between columns: free of quotes and not extending the previous word. -/
def gapOK (g : List Char) : Bool := !g.contains '"' && headNotWord g

/-- Well-formed column occurrence. -/
def colOK (c : SqlCol) : Bool := wordOK c.name && wordOK c.dtype && gapOK c.gap

/-- Well-formed body: nonempty and not containing the terminator `);`
(otherwise the statement would end earlier). -/
def bodyOK (b : List Char) : Bool := !b.isEmpty && !(decide ([')', ';'] <:+: b))

/-- Well-formed statement. -/
def stmtOK (s : SqlStmt) : Bool :=
  wordOK s.name && !s.lead.contains '"' && s.cols.all colOK && bodyOK (renderBody s)

/-- Separator text containing no CREATE TABLE IF NOT EXISTS occurrence. -/
def sepOK (sep : List Char) : Bool := !(decide (tableLit <:+: sep))

/-- All statements and separators well-formed. -/
def itemsOK (items : List (SqlStmt × List Char)) : Bool :=
  items.all (fun it => stmtOK it.1 && sepOK it.2)

/-- The Logical File the specification promises for one statement. -/
def stmtLF (s : SqlStmt) : LogicalFile :=
  { name := ⟨s.name⟩
    type := LFType.ILF
    parentName := none
    dataElements := s.cols.map (fun c => ⟨⟨c.name⟩, ⟨c.dtype⟩⟩)
    description := none
    FPs := none }

/-! ## Theorems -/

/-- Folding `+ f x` over a list starting from `n` adds the mapped sum. -/
theorem foldl_add_eq_sum {α : Type} (f : α → Nat) (l : List α) (n : Nat) :
    l.foldl (fun sum x => sum + f x) n = n + (l.map f).sum := by
  induction l generalizing n with
  | nil => simp
  | cons a l ih => simp [List.foldl_cons, ih, Nat.add_assoc]

/-- C1.  The code diverges from the claim on a concrete store: removing
LogicalFile "A" leaves the EP entry `{name: "x", logicalFileName: "A"}` in
place (the filter tests the entry's `name` field, not `logicalFileName`), and
drops the RET "R" although its parent is "B", not "A" (the RET filter removes
every RET).  The claim predicts dataElements `[]` and surviving files
`["R", "B"]`. -/
theorem removeLF_cascade_divergence :
    (let st : FPAnalysis :=
      ⟨[⟨"A", LFType.ILF, none, [⟨"x", "TEXT"⟩], none, none⟩,
        ⟨"R", LFType.RET, some "B", [], none, none⟩,
        ⟨"B", LFType.ILF, none, [], none, none⟩],
       [⟨"EI_1", "d", EPType.EI, [⟨"x", "A"⟩], none⟩]⟩
     ((removeLF "A" st).elementaryProcesses.map (fun e => e.dataElements))
        = [[⟨"x", "A"⟩]] ∧
      (removeLF "A" st).logicalFiles.map (fun lf => lf.name) = ["B"]) := by
  decide

/-- C2.  The code diverges from the claim on a concrete store: LogicalFile
"A" contains only the DataElement "x", yet
`addEP "d" EI [{name: "y", logicalFileName: "A"}]` appends the EP instead of
aborting (the inner existence check compares the file's dataElements with
themselves and never fails).  The claim predicts an unchanged, empty EP
collection. -/
theorem addEP_missing_dataElement_accepted :
    (let st : FPAnalysis := ⟨[⟨"A", LFType.ILF, none, [⟨"x", "TEXT"⟩], none, none⟩], []⟩
     (addEP "d" EPType.EI [⟨"y", "A"⟩] st).elementaryProcesses
        = [⟨"EI_1", "d", EPType.EI, [⟨"y", "A"⟩], none⟩]) := by
  decide

/-- C3 counterexample.  add EI, add EI, remove "EI_1", add EI yields the id
list ["EI_2", "EI_2"]: two EPs share an id, so ids are neither unique nor
never-reassigned after a remove. -/
theorem addEP_id_reuse_counterexample :
    ((addEP "c" EPType.EI []
        (removeEP "EI_1"
          (addEP "b" EPType.EI []
            (addEP "a" EPType.EI [] ⟨[], []⟩)))).elementaryProcesses.map
      (fun e => e.id)) = ["EI_2", "EI_2"] ∧
    ¬ ((addEP "c" EPType.EI []
        (removeEP "EI_1"
          (addEP "b" EPType.EI []
            (addEP "a" EPType.EI [] ⟨[], []⟩)))).elementaryProcesses.map
      (fun e => e.id)).Nodup := by
  constructor
  · decide
  · decide

/-- C7.  importFromJSON (exportAsJSON a) reproduces an observably identical
model on any receiving store: both collections are structurally equal to the
originals, and evaluateFPs / getTotalFPs afterwards agree with the original
store. -/
theorem export_import_roundtrip (a b : FPAnalysis) :
    importFromJSON (exportAsJSON a) b = a ∧
    (importFromJSON (exportAsJSON a) b).logicalFiles = a.logicalFiles ∧
    (importFromJSON (exportAsJSON a) b).elementaryProcesses = a.elementaryProcesses ∧
    evaluateFPs (importFromJSON (exportAsJSON a) b) = evaluateFPs a ∧
    getTotalFPs (evaluateFPs (importFromJSON (exportAsJSON a) b))
      = getTotalFPs (evaluateFPs a) :=
  ⟨rfl, rfl, rfl, rfl, rfl⟩

/-- C8 counterexample.  evaluateFPs, then a mutation (addLF "B"): the total is
the stale 7 from the last evaluation, not 0 as the claim states. -/
theorem getTotalFPs_stale_after_mutation :
    getTotalFPs (addLF "B" LFType.ILF [] none none
        (evaluateFPs (addLF "A" LFType.ILF [⟨"a", "TEXT"⟩] none none ⟨[], []⟩))) = 7 ∧
    getTotalFPs (addLF "B" LFType.ILF [] none none
        (evaluateFPs (addLF "A" LFType.ILF [⟨"a", "TEXT"⟩] none none ⟨[], []⟩))) ≠ 0 := by
  constructor
  · decide
  · decide

/-- C8 amended.  getTotalFPs sums the stored FPs of all LogicalFiles plus all
ElementaryProcesses, counting an unset FPs as 0; when evaluateFPs has never
been run (every FPs is unset) it returns 0.  After a mutation it keeps
returning the stale sums (see the counterexample), not 0. -/
theorem getTotalFPs_amended :
    (∀ a : FPAnalysis,
      getTotalFPs a = (a.logicalFiles.map (fun lf => lf.FPs.getD 0)).sum +
        (a.elementaryProcesses.map (fun ep => ep.FPs.getD 0)).sum) ∧
    (∀ a : FPAnalysis, (∀ lf ∈ a.logicalFiles, lf.FPs = none) →
      (∀ ep ∈ a.elementaryProcesses, ep.FPs = none) → getTotalFPs a = 0) := by
  have hsum : ∀ a : FPAnalysis,
      getTotalFPs a = (a.logicalFiles.map (fun lf => lf.FPs.getD 0)).sum +
        (a.elementaryProcesses.map (fun ep => ep.FPs.getD 0)).sum := by
    intro a
    unfold getTotalFPs
    rw [foldl_add_eq_sum, foldl_add_eq_sum]
    omega
  refine ⟨hsum, fun a h1 h2 => ?_⟩
  rw [hsum a]
  have z1 : (a.logicalFiles.map (fun lf => lf.FPs.getD 0)).sum = 0 := by
    apply List.sum_eq_zero
    intro x hx
    rcases List.mem_map.mp hx with ⟨lf, hlf, rfl⟩
    rw [h1 lf hlf]
    rfl
  have z2 : (a.elementaryProcesses.map (fun ep => ep.FPs.getD 0)).sum = 0 := by
    apply List.sum_eq_zero
    intro x hx
    rcases List.mem_map.mp hx with ⟨ep, hep, rfl⟩
    rw [h2 ep hep]
    rfl
  rw [z1, z2]

/-- C8 amended, witness: on a store that was never evaluated the total is 0. -/
theorem getTotalFPs_amended_witness :
    getTotalFPs ⟨[⟨"A", LFType.ILF, none, [⟨"a", "TEXT"⟩], none, none⟩],
      [⟨"EI_1", "d", EPType.EI, [], none⟩]⟩ = 0 :=
  getTotalFPs_amended.2
    ⟨[⟨"A", LFType.ILF, none, [⟨"a", "TEXT"⟩], none, none⟩],
      [⟨"EI_1", "d", EPType.EI, [], none⟩]⟩
    (by decide) (by decide)

/-- C9.  readSQL never touches the EP collection, for any SQL text and any
store; consequently a store exists (one LogicalFile "T" referenced by an EP,
then readSQL of an empty script) whose surviving EP holds a dataElements
entry whose logicalFileName names no LogicalFile in the store. -/
theorem readSQL_frame_eps :
    (∀ (sql : String) (a : FPAnalysis),
      (readSQL sql a).elementaryProcesses = a.elementaryProcesses) ∧
    (∃ (a : FPAnalysis) (sql : String) (ep : ElementaryProcess),
      ep ∈ (readSQL sql a).elementaryProcesses ∧
      ∃ de ∈ ep.dataElements, ∀ lf ∈ (readSQL sql a).logicalFiles,
        lf.name ≠ de.logicalFileName) := by
  refine ⟨fun sql a => rfl, ?_⟩
  refine ⟨⟨[⟨"T", LFType.ILF, none, [⟨"x", "T1"⟩], none, none⟩],
    [⟨"EI_1", "d", EPType.EI, [⟨"x", "T"⟩], none⟩]⟩, "",
    ⟨"EI_1", "d", EPType.EI, [⟨"x", "T"⟩], none⟩, ?_, ?_⟩
  · decide
  · refine ⟨⟨"x", "T"⟩, ?_, ?_⟩
    · decide
    · decide

/-- Pointwise form of the Logical File scoring step: the engine's complexity
string and contribution table agree with the specification's tier table. -/
theorem evalLF_FPs (lfs : List LogicalFile) (lf : LogicalFile) :
    (evalLF lfs lf).FPs =
      if lf.type = LFType.RET then some 0
      else some (specLFScore lf.type
        (specLFTier (specNRETs lfs lf.name) (specTotalDETs lfs lf))) := by
  cases htype : lf.type
  case RET => simp [evalLF, htype]
  all_goals
    simp only [evalLF, lfComplexityStr, specLFTier, specNRETs, specTotalDETs,
      specLFScore, htype, reduceCtorEq, if_false]
    split_ifs <;> first | rfl | omega | decide

/-- C4.  evaluateFPs assigns every non-RET LogicalFile the score of the
specification's tier table applied to nRETs = 1 + (RET children) and
totalDETs = own + RET children dataElement counts (ILF 7/10/15, EIF 5/7/10;
nRETs = 1 never reaches High), and a RET keeps only the reset 0, no score of
its own. -/
theorem evaluateFPs_lf_scores (a : FPAnalysis) :
    (evaluateFPs a).logicalFiles.map (fun lf => lf.FPs)
      = a.logicalFiles.map (fun lf =>
          if lf.type = LFType.RET then some 0
          else some (specLFScore lf.type
            (specLFTier (specNRETs a.logicalFiles lf.name)
              (specTotalDETs a.logicalFiles lf)))) := by
  show ((a.logicalFiles.map (fun lf => evalLF a.logicalFiles lf)).map
    (fun lf => lf.FPs)) = _
  rw [List.map_map]
  refine List.map_congr_left (fun lf _ => ?_)
  simpa using evalLF_FPs a.logicalFiles lf

/-- Pointwise form of the Elementary Process scoring step: the engine's
complexity string and contribution tables agree with the specification's
tier table. -/
theorem evalEP_FPs (ep : ElementaryProcess) :
    (evalEP ep).FPs
      = some (specEPScore ep.type (specEPTier ep.type (specNLFs ep) (specNDETs ep))) := by
  cases htype : ep.type
  all_goals
    simp only [evalEP, epComplexityStr, specEPTier, specNLFs, specNDETs,
      specEPScore, htype, reduceCtorEq, if_false]
    split_ifs <;> first | rfl | omega | decide

/-- C5.  evaluateFPs assigns every ElementaryProcess (here: every one with at
least one referenced LogicalFile) the score of the specification's tier table
over nLFs = distinct referenced logicalFileNames and nDETs = entry count:
EI thresholds 5 / 5–15 / 15, EO and EQ thresholds 20 / 7–20 / 20, scores
EI,EO 3/4/6 and EQ 4/5/7. -/
theorem evaluateFPs_ep_scores (a : FPAnalysis) (i : Nat)
    (h : i < a.elementaryProcesses.length)
    (hn : 1 ≤ specNLFs (a.elementaryProcesses.get ⟨i, h⟩)) :
    ((evaluateFPs a).elementaryProcesses.map (fun e => e.FPs))[i]?
      = some (some (specEPScore (a.elementaryProcesses.get ⟨i, h⟩).type
          (specEPTier (a.elementaryProcesses.get ⟨i, h⟩).type
            (specNLFs (a.elementaryProcesses.get ⟨i, h⟩))
            (specNDETs (a.elementaryProcesses.get ⟨i, h⟩))))) := by
  show ((a.elementaryProcesses.map evalEP).map (fun e => e.FPs))[i]? = _
  rw [List.map_map, List.getElem?_map, List.getElem?_eq_getElem h]
  simp only [Option.map_some', Function.comp_apply, List.get_eq_getElem]
  rw [evalEP_FPs]

/-- C5 witness: an EI process over 2 distinct LogicalFiles with 16 entries
scores 6 (High). -/
theorem evaluateFPs_ep_scores_witness :
    ((evaluateFPs ⟨[], [⟨"EI_1", "d", EPType.EI,
        (List.range 8).map (fun i => ⟨⟨natToDecimal i⟩, "L1"⟩) ++
          (List.range 8).map (fun i => ⟨⟨natToDecimal i⟩, "L2"⟩), none⟩]⟩).elementaryProcesses.map
      (fun e => e.FPs))[0]? = some (some 6) := by
  have h := evaluateFPs_ep_scores ⟨[], [⟨"EI_1", "d", EPType.EI,
    (List.range 8).map (fun i => ⟨⟨natToDecimal i⟩, "L1"⟩) ++
      (List.range 8).map (fun i => ⟨⟨natToDecimal i⟩, "L2"⟩), none⟩]⟩ 0 (by decide) (by decide)
  rw [h]
  decide

/-- Pointwise form of C10: an EP without dataElements lands in the final
branch with complexity "Average". -/
theorem evalEP_empty (ep : ElementaryProcess) (h : ep.dataElements = []) :
    epComplexityStr ep = "Average" ∧
    (evalEP ep).FPs = some (if ep.type = EPType.EQ then 5 else 4) := by
  cases htype : ep.type <;>
    simp [evalEP, epComplexityStr, h, htype, EQContribution, EIandEOContribution]

/-- C10.  An ElementaryProcess whose dataElements list is empty (nLFs = 0,
nDETs = 0) is classified through the final (nLFs ≥ 3) branch as Average,
never Low: evaluateFPs scores it 4 for EI and EO, 5 for EQ. -/
theorem evaluateFPs_empty_ep (a : FPAnalysis) (i : Nat)
    (h : i < a.elementaryProcesses.length)
    (hde : (a.elementaryProcesses.get ⟨i, h⟩).dataElements = []) :
    epComplexityStr (a.elementaryProcesses.get ⟨i, h⟩) = "Average" ∧
    ((evaluateFPs a).elementaryProcesses.map (fun e => e.FPs))[i]?
      = some (some (if (a.elementaryProcesses.get ⟨i, h⟩).type = EPType.EQ
          then 5 else 4)) := by
  refine ⟨(evalEP_empty _ hde).1, ?_⟩
  show ((a.elementaryProcesses.map evalEP).map (fun e => e.FPs))[i]? = _
  rw [List.map_map, List.getElem?_map, List.getElem?_eq_getElem h]
  simp only [Option.map_some', Function.comp_apply, List.get_eq_getElem] at hde ⊢
  rw [(evalEP_empty _ hde).2]

/-- C10 witness: an EQ process with no dataElements has complexity Average
and score 5. -/
theorem evaluateFPs_empty_ep_witness :
    epComplexityStr ⟨"EQ_1", "d", EPType.EQ, [], none⟩ = "Average" ∧
    ((evaluateFPs ⟨[], [⟨"EQ_1", "d", EPType.EQ, [], none⟩]⟩).elementaryProcesses.map
      (fun e => e.FPs))[0]? = some (some 5) := by
  have h := evaluateFPs_empty_ep ⟨[], [⟨"EQ_1", "d", EPType.EQ, [], none⟩]⟩ 0
    (by decide) (by decide)
  refine ⟨h.1, ?_⟩
  rw [h.2]
  decide

/-- A digit character evaluates back to its digit. -/
theorem digitVal_digitChar : ∀ n < 10, digitVal (digitChar n) = n := by decide

/-- `decimalVal` over a trailing digit. -/
theorem decimalVal_append_singleton (l : List Char) (c : Char) :
    decimalVal (l ++ [c]) = 10 * decimalVal l + digitVal c := by
  simp [decimalVal, List.foldl_append]
  omega

/-- The fuelled decimal rendering round-trips through `decimalVal`. -/
theorem decimalVal_natToDecimalAux :
    ∀ (fuel n : Nat), n < fuel → decimalVal (natToDecimalAux fuel n) = n := by
  intro fuel
  induction fuel with
  | zero => omega
  | succ fuel ih =>
    intro n hn
    by_cases h10 : n < 10
    · simp [natToDecimalAux, h10, decimalVal, digitVal_digitChar n h10]
    · have hdiv : n / 10 < n := Nat.div_lt_self (by omega) (by omega)
      have hmod : n % 10 < 10 := Nat.mod_lt _ (by omega)
      simp only [natToDecimalAux, h10, if_false]
      rw [decimalVal_append_singleton, ih (n / 10) (by omega),
        digitVal_digitChar _ hmod]
      omega

/-- Decimal rendering round-trips through `decimalVal`. -/
theorem decimalVal_natToDecimal (n : Nat) : decimalVal (natToDecimal n) = n :=
  decimalVal_natToDecimalAux (n + 1) n (Nat.lt_succ_self n)

/-- Decimal rendering is injective. -/
theorem natToDecimal_inj {m n : Nat} (h : natToDecimal m = natToDecimal n) : m = n := by
  have := decimalVal_natToDecimal m
  rw [h, decimalVal_natToDecimal] at this
  omega

/-- Two equal EP ids have the same type and the same sequence number. -/
theorem mkEPId_inj {t1 t2 : EPType} {m n : Nat} (h : mkEPId t1 m = mkEPId t2 n) :
    t1 = t2 ∧ m = n := by
  have hd : epTypeChars t1 ++ '_' :: natToDecimal m
      = epTypeChars t2 ++ '_' :: natToDecimal n := congrArg String.data h
  cases t1 <;> cases t2 <;> simp [epTypeChars] at hd <;>
    exact ⟨rfl, natToDecimal_inj hd⟩

/-- A successful addEP appends one EP carrying id `<type>_<count + 1>`. -/
theorem addEP_success (a : FPAnalysis) (d : String) (t : EPType)
    (des : List EPDataElement) (h : epRefsValid a.logicalFiles des = true) :
    (addEP d t des a).elementaryProcesses
      = a.elementaryProcesses ++
        [⟨mkEPId t (countEPsOfType a t + 1), d, t, des, none⟩] := by
  simp [addEP, h]

/-- Every EP in a store satisfying the id invariant carries an id of the form
`<its type>_<j + 1>` with `j` below the count of its type. -/
theorem epId_structure (a : FPAnalysis) (hInv : epIdInv a) (ep : ElementaryProcess)
    (hep : ep ∈ a.elementaryProcesses) :
    ∃ j, j < countEPsOfType a ep.type ∧ ep.id = mkEPId ep.type (j + 1) := by
  have h1 : ep.id ∈ (a.elementaryProcesses.filter
      (fun e => e.type == ep.type)).map (fun e => e.id) :=
    List.mem_map_of_mem _ (List.mem_filter.mpr ⟨hep, by simp⟩)
  rw [hInv ep.type] at h1
  rcases List.mem_map.mp h1 with ⟨j, hj, hid⟩
  exact ⟨j, List.mem_range.mp hj, hid.symm⟩

/-- addEP preserves the id invariant. -/
theorem epIdInv_addEP (a : FPAnalysis) (d : String) (t : EPType)
    (des : List EPDataElement) (hInv : epIdInv a) : epIdInv (addEP d t des a) := by
  by_cases h : epRefsValid a.logicalFiles des = true
  · intro t'
    have hcount : countEPsOfType (addEP d t des a) t'
        = countEPsOfType a t' + (if t = t' then 1 else 0) := by
      unfold countEPsOfType
      rw [addEP_success a d t des h, List.filter_append]
      by_cases ht : t = t' <;> simp [ht]
    rw [addEP_success a d t des h, List.filter_append, List.map_append, hcount]
    by_cases ht : t = t'
    · subst ht
      simp only [if_true, reduceIte]
      rw [List.range_succ, List.map_append, hInv t]
      simp
    · simp only [ht, if_false, reduceIte]
      have : List.filter (fun e => e.type == t')
          [(⟨mkEPId t (countEPsOfType a t + 1), d, t, des, none⟩ : ElementaryProcess)]
          = [] := by simp [ht]
      rw [this]
      simp [hInv t']
  · have : addEP d t des a = a := by simp [addEP, h]
    rw [this]
    exact hInv

/-- addEP preserves distinctness of the stored ids. -/
theorem epIds_nodup_addEP (a : FPAnalysis) (d : String) (t : EPType)
    (des : List EPDataElement) (hInv : epIdInv a)
    (hnd : (a.elementaryProcesses.map (fun e => e.id)).Nodup) :
    ((addEP d t des a).elementaryProcesses.map (fun e => e.id)).Nodup := by
  by_cases h : epRefsValid a.logicalFiles des = true
  · rw [addEP_success a d t des h, List.map_append]
    refine List.Nodup.append hnd (List.nodup_singleton _) ?_
    intro x hx hx1
    simp only [List.map_cons, List.map_nil, List.mem_singleton] at hx1
    subst hx1
    rcases List.mem_map.mp hx with ⟨ep, hep, hid⟩
    rcases epId_structure a hInv ep hep with ⟨j, hj, hid2⟩
    rw [hid2] at hid
    rcases mkEPId_inj hid with ⟨hty, hnum⟩
    rw [hty] at hj
    omega
  · have : addEP d t des a = a := by simp [addEP, h]
    rw [this]
    exact hnd

/-- Folding addEP calls preserves both the invariant and distinctness. -/
theorem addEPOps_inv (ops : List (String × EPType × List EPDataElement)) :
    ∀ a : FPAnalysis, epIdInv a →
      (a.elementaryProcesses.map (fun e => e.id)).Nodup →
      epIdInv (addEPOps ops a) ∧
        ((addEPOps ops a).elementaryProcesses.map (fun e => e.id)).Nodup := by
  induction ops with
  | nil => intro a h1 h2; exact ⟨h1, h2⟩
  | cons op ops ih =>
    intro a h1 h2
    exact ih (addEP op.1 op.2.1 op.2.2 a)
      (epIdInv_addEP a op.1 op.2.1 op.2.2 h1)
      (epIds_nodup_addEP a op.1 op.2.1 op.2.2 h1 h2)

/-- The empty store satisfies the id invariant. -/
theorem epIdInv_empty : epIdInv ⟨[], []⟩ := fun _ => rfl

/-- C3 amended.  A successful addEP assigns id `<type>_<n + 1>` with n the
current count of EPs of that type, and in any sequence of addEP calls from
the empty store (no removals) all assigned ids are pairwise distinct; after
a removeEP a later addEP can re-assign an id still in use (see the
counterexample), so uniqueness holds only for add-only histories. -/
theorem addEP_ids_amended :
    (∀ (a : FPAnalysis) (d : String) (t : EPType) (des : List EPDataElement),
      epRefsValid a.logicalFiles des = true →
      (addEP d t des a).elementaryProcesses
        = a.elementaryProcesses ++
          [⟨mkEPId t (countEPsOfType a t + 1), d, t, des, none⟩]) ∧
    (∀ ops : List (String × EPType × List EPDataElement),
      ((addEPOps ops ⟨[], []⟩).elementaryProcesses.map (fun e => e.id)).Nodup) :=
  ⟨addEP_success,
    fun ops => (addEPOps_inv ops ⟨[], []⟩ epIdInv_empty List.nodup_nil).2⟩

/-- C3 amended, witness: a concrete successful add appends `EI_1`, and a
concrete add-only history has pairwise distinct ids. -/
theorem addEP_ids_amended_witness :
    (addEP "a" EPType.EI [] ⟨[], []⟩).elementaryProcesses
      = [⟨mkEPId EPType.EI 1, "a", EPType.EI, [], none⟩] ∧
    ((addEPOps [("a", EPType.EI, []), ("b", EPType.EO, []), ("c", EPType.EI, [])]
        ⟨[], []⟩).elementaryProcesses.map (fun e => e.id)).Nodup := by
  constructor
  · have h := addEP_ids_amended.1 ⟨[], []⟩ "a" EPType.EI [] (by decide)
    simpa using h
  · exact addEP_ids_amended.2 [("a", EPType.EI, []), ("b", EPType.EO, []), ("c", EPType.EI, [])]

/-- matchChar succeeds exactly on the expected head character. -/
theorem matchChar_some {c : Char} {s r : List Char} (h : matchChar c s = some r) :
    s = c :: r := by
  cases s with
  | nil => simp [matchChar] at h
  | cons d s' =>
    by_cases hdc : d = c
    · simp [matchChar, hdc] at h
      rw [hdc, h]
    · simp [matchChar, hdc] at h

/-- matchLit strips an exact literal prefix. -/
theorem matchLit_append (p r : List Char) : matchLit p (p ++ r) = some r := by
  induction p with
  | nil => rfl
  | cons c p' ih => simp [matchLit, ih]

/-- A successful matchLit exhibits the literal as a prefix. -/
theorem matchLit_some_eq {p s r : List Char} (h : matchLit p s = some r) :
    s = p ++ r := by
  induction p generalizing s with
  | nil =>
    simpa [matchLit] using h
  | cons c p' ih =>
    cases s with
    | nil => simp [matchLit] at h
    | cons d s' =>
      by_cases hdc : d = c
      · simp only [matchLit, hdc, if_pos] at h
        rw [List.cons_append, hdc, ih h]
      · simp [matchLit, hdc] at h

/-- matchLit fails when the literal is not a prefix. -/
theorem matchLit_none {p s : List Char} (h : ¬ (p <+: s)) : matchLit p s = none := by
  cases hm : matchLit p s with
  | none => rfl
  | some r => exact absurd ⟨r, (matchLit_some_eq hm).symm⟩ h

/-- scanWord consumes an all-word prefix up to a non-word boundary. -/
theorem scanWord_append (w r : List Char) (hw : w.all isWordChar = true)
    (hr : headNotWord r = true) : scanWord (w ++ r) = (w, r) := by
  induction w with
  | nil =>
    cases r with
    | nil => rfl
    | cons c r' =>
      simp only [headNotWord, Bool.not_eq_true'] at hr
      simp [scanWord, hr]
  | cons c w' ih =>
    simp only [List.all_cons, Bool.and_eq_true] at hw
    simp [scanWord, hw.1, ih hw.2]

/-- scanSpace consumes an all-space prefix up to a non-space boundary. -/
theorem scanSpace_append (w r : List Char) (hw : w.all isSpaceChar = true)
    (hr : headNotSpace r = true) : scanSpace (w ++ r) = (w, r) := by
  induction w with
  | nil =>
    cases r with
    | nil => rfl
    | cons c r' =>
      simp only [headNotSpace, Bool.not_eq_true'] at hr
      simp [scanSpace, hr]
  | cons c w' ih =>
    simp only [List.all_cons, Bool.and_eq_true] at hw
    simp [scanSpace, hw.1, ih hw.2]

/-- The unscanned remainder of scanWord is no longer than the input. -/
theorem scanWord_snd_le (s : List Char) : (scanWord s).2.length ≤ s.length := by
  induction s with
  | nil => simp [scanWord]
  | cons c r ih =>
    by_cases h : isWordChar c <;> simp [scanWord, h] <;> omega

/-- The unscanned remainder of scanSpace is no longer than the input. -/
theorem scanSpace_snd_le (s : List Char) : (scanSpace s).2.length ≤ s.length := by
  induction s with
  | nil => simp [scanSpace]
  | cons c r ih =>
    by_cases h : isSpaceChar c <;> simp [scanSpace, h] <;> omega

/-- A word character is not a whitespace character. -/
theorem wordChar_not_space (c : Char) (h : isWordChar c = true) : isSpaceChar c = false := by
  by_contra hc
  rw [Bool.not_eq_false] at hc
  simp only [isSpaceChar, decide_eq_true_eq] at hc
  rcases hc with h1 | h1 | h1 | h1 | h1 | h1 <;> subst h1 <;> exact absurd h (by decide)

/-- findCS consumes at least the two terminator characters. -/
theorem findCS_some_length :
    ∀ (s : List Char) (p : List Char × List Char), findCS s = some p →
      p.2.length + 2 ≤ s.length := by
  intro s
  induction s with
  | nil => intro p h; simp [findCS] at h
  | cons c r ih =>
    intro p h
    cases r with
    | nil => simp [findCS] at h
    | cons d r' =>
      by_cases hcd : c = ')' ∧ d = ';'
      · simp only [findCS, hcd, if_pos] at h
        injection h with h
        rw [← h]
        simp
      · simp only [findCS, hcd, if_neg, ite_false] at h
        cases hf : findCS (d :: r') with
        | none => rw [hf] at h; cases h
        | some q =>
          rw [hf] at h
          injection h with h
          have hq := ih q hf
          rw [← h]
          simp only [List.length_cons] at hq ⊢
          omega

/-- bodySplit consumes at least the body head and the terminator. -/
theorem bodySplit_some_length {s : List Char} {p : List Char × List Char}
    (h : bodySplit s = some p) : p.2.length < s.length := by
  cases s with
  | nil => simp [bodySplit] at h
  | cons c r =>
    simp only [bodySplit] at h
    cases hf : findCS r with
    | none => rw [hf] at h; cases h
    | some q =>
      rw [hf] at h
      injection h with h
      have := findCS_some_length r q hf
      rw [← h]
      simp only [List.length_cons]
      omega

/-- A successful column match leaves a strictly shorter remainder. -/
theorem matchColAt_some_length (s : List Char) (x : List Char × List Char × List Char)
    (h : matchColAt s = some x) : x.2.2.length < s.length := by
  unfold matchColAt at h
  cases hm : matchChar '"' s with
  | none => simp only [hm, reduceCtorEq] at h
  | some s1 =>
    simp only [hm] at h
    have hs : s = '"' :: s1 := matchChar_some hm
    by_cases h1 : (scanWord s1).1 = []
    · simp [h1] at h
    · simp only [h1, if_neg, ite_false] at h
      cases hm2 : matchChar '"' (scanWord s1).2 with
      | none => simp only [hm2, reduceCtorEq] at h
      | some s2 =>
        simp only [hm2] at h
        have hs2 : (scanWord s1).2 = '"' :: s2 := matchChar_some hm2
        by_cases h2 : (scanSpace s2).1 = []
        · simp [h2] at h
        · simp only [h2, if_neg, ite_false] at h
          by_cases h3 : (scanWord (scanSpace s2).2).1 = []
          · simp [h3] at h
          · simp only [h3, if_neg, ite_false, Option.some.injEq] at h
            have e1 : (scanWord s1).2.length ≤ s1.length := scanWord_snd_le s1
            have e2 : (scanSpace s2).2.length ≤ s2.length := scanSpace_snd_le s2
            have e3 : (scanWord (scanSpace s2).2).2.length ≤ (scanSpace s2).2.length :=
              scanWord_snd_le _
            have l1 : s.length = s1.length + 1 := by rw [hs]; rfl
            have l2 : (scanWord s1).2.length = s2.length + 1 := by rw [hs2]; rfl
            rw [← h]
            simp only []
            omega

/-- A successful table match leaves a strictly shorter remainder. -/
theorem matchTableAt_some_length (s : List Char) (x : List Char × List Char × List Char)
    (h : matchTableAt s = some x) : x.2.2.length < s.length := by
  unfold matchTableAt at h
  cases hm : matchLit tableLit s with
  | none => simp only [hm, reduceCtorEq] at h
  | some s1 =>
    simp only [hm] at h
    have hs : s = tableLit ++ s1 := matchLit_some_eq hm
    by_cases h1 : (scanSpace s1).1 = []
    · simp [h1] at h
    · simp only [h1, if_neg, ite_false] at h
      cases hm2 : matchChar '"' (scanSpace s1).2 with
      | none => simp only [hm2, reduceCtorEq] at h
      | some s2 =>
        simp only [hm2] at h
        have hs2 : (scanSpace s1).2 = '"' :: s2 := matchChar_some hm2
        by_cases h2 : (scanWord s2).1 = []
        · simp [h2] at h
        · simp only [h2, if_neg, ite_false] at h
          cases hm3 : matchChar '"' (scanWord s2).2 with
          | none => simp only [hm3, reduceCtorEq] at h
          | some s3 =>
            simp only [hm3] at h
            have hs3 : (scanWord s2).2 = '"' :: s3 := matchChar_some hm3
            cases hm4 : matchChar '(' (scanSpace s3).2 with
            | none => simp only [hm4, reduceCtorEq] at h
            | some s4 =>
              simp only [hm4] at h
              have hs4 : (scanSpace s3).2 = '(' :: s4 := matchChar_some hm4
              cases hm5 : bodySplit s4 with
              | none => simp only [hm5, reduceCtorEq] at h
              | some bd =>
                simp only [hm5, Option.some.injEq] at h
                have e1 : (scanSpace s1).2.length ≤ s1.length := scanSpace_snd_le s1
                have e2 : (scanWord s2).2.length ≤ s2.length := scanWord_snd_le s2
                have e3 : (scanSpace s3).2.length ≤ s3.length := scanSpace_snd_le s3
                have e5 : bd.2.length < s4.length := bodySplit_some_length hm5
                have l1 : s.length = tableLit.length + s1.length := by
                  rw [hs]; simp
                have l2 : (scanSpace s1).2.length = s2.length + 1 := by rw [hs2]; rfl
                have l3 : (scanWord s2).2.length = s3.length + 1 := by rw [hs3]; rfl
                have l4 : (scanSpace s3).2.length = s4.length + 1 := by rw [hs4]; rfl
                have l5 : 0 < tableLit.length := by decide
                rw [← h]
                simp only []
                omega

/-- The fuel is irrelevant once it covers the input length. -/
theorem columnsF_fuel :
    ∀ (f1 f2 : Nat) (s : List Char), s.length ≤ f1 → s.length ≤ f2 →
      columnsF f1 s = columnsF f2 s := by
  intro f1
  induction f1 with
  | zero =>
    intro f2 s h1 _
    have hs : s = [] := List.length_eq_zero.mp (by omega)
    subst hs
    cases f2 <;> simp [columnsF]
  | succ f1 ih =>
    intro f2 s h1 h2
    cases s with
    | nil => cases f2 <;> simp [columnsF]
    | cons c r =>
      cases f2 with
      | zero => simp at h2
      | succ f2 =>
        cases hm : matchColAt (c :: r) with
        | none =>
          simp only [columnsF, hm]
          exact ih f2 r (by simp at h1; omega) (by simp at h2; omega)
        | some x =>
          have hl := matchColAt_some_length (c :: r) x hm
          simp only [columnsF, hm]
          congr 1
          refine ih f2 x.2.2 ?_ ?_ <;> simp at h1 h2 hl <;> omega

/-- The fuel is irrelevant once it covers the input length. -/
theorem tablesF_fuel :
    ∀ (f1 f2 : Nat) (s : List Char), s.length ≤ f1 → s.length ≤ f2 →
      tablesF f1 s = tablesF f2 s := by
  intro f1
  induction f1 with
  | zero =>
    intro f2 s h1 _
    have hs : s = [] := List.length_eq_zero.mp (by omega)
    subst hs
    cases f2 <;> simp [tablesF]
  | succ f1 ih =>
    intro f2 s h1 h2
    cases s with
    | nil => cases f2 <;> simp [tablesF]
    | cons c r =>
      cases f2 with
      | zero => simp at h2
      | succ f2 =>
        cases hm : matchTableAt (c :: r) with
        | none =>
          simp only [tablesF, hm]
          exact ih f2 r (by simp at h1; omega) (by simp at h2; omega)
        | some x =>
          have hl := matchTableAt_some_length (c :: r) x hm
          simp only [tablesF, hm]
          congr 1
          refine ih f2 x.2.2 ?_ ?_ <;> simp at h1 h2 hl <;> omega

/-- Unfolding equation of `columns` on a failed match. -/
theorem columns_eq_none {c : Char} {r : List Char} (h : matchColAt (c :: r) = none) :
    columns (c :: r) = columns r := by
  unfold columns
  simp only [List.length_cons, columnsF, h]

/-- Unfolding equation of `columns` on a successful match. -/
theorem columns_eq_some {c : Char} {r : List Char} {x : List Char × List Char × List Char}
    (h : matchColAt (c :: r) = some x) :
    columns (c :: r) = (x.1, x.2.1) :: columns x.2.2 := by
  have hl := matchColAt_some_length (c :: r) x h
  unfold columns
  simp only [List.length_cons, columnsF, h]
  congr 1
  refine columnsF_fuel r.length x.2.2.length x.2.2 ?_ le_rfl
  simp at hl
  omega

/-- Unfolding equation of `tables` on a failed match. -/
theorem tables_eq_none {c : Char} {r : List Char} (h : matchTableAt (c :: r) = none) :
    tables (c :: r) = tables r := by
  unfold tables
  simp only [List.length_cons, tablesF, h]

/-- Unfolding equation of `tables` on a successful match. -/
theorem tables_eq_some {c : Char} {r : List Char} {x : List Char × List Char × List Char}
    (h : matchTableAt (c :: r) = some x) :
    tables (c :: r) = (x.1, x.2.1) :: tables x.2.2 := by
  have hl := matchTableAt_some_length (c :: r) x h
  unfold tables
  simp only [List.length_cons, tablesF, h]
  congr 1
  refine tablesF_fuel r.length x.2.2.length x.2.2 ?_ le_rfl
  simp at hl
  omega

/-- Unfolding equation of `tables` on any nonempty input with a successful
match. -/
theorem tables_eq_some_of_ne {s : List Char} {x : List Char × List Char × List Char}
    (hs : s ≠ []) (h : matchTableAt s = some x) :
    tables s = (x.1, x.2.1) :: tables x.2.2 := by
  obtain ⟨c, r, rfl⟩ := List.exists_cons_of_ne_nil hs
  exact tables_eq_some h

/-- A prefix occurring at the very start is in particular an infix. -/
theorem isInfixFromStart {l1 l2 : List Char} (h : l1 <+: l2) : l1 <:+: l2 := by
  rcases h with ⟨u, hu⟩
  exact ⟨[], u, by simpa using hu⟩

/-- findCS finds the terminator placed right after terminator-free text. -/
theorem findCS_append (t r : List Char) (h : ¬ ([')', ';'] <:+: t)) :
    findCS (t ++ ')' :: ';' :: r) = some (t, r) := by
  induction t with
  | nil => simp [findCS]
  | cons c t' ih =>
    have h' : ¬ ([')', ';'] <:+: t') := fun hx => h (List.infix_cons hx)
    cases t' with
    | nil =>
      have hcond : ¬ (c = ')' ∧ (')' : Char) = ';') := by
        rintro ⟨-, h2⟩
        exact absurd h2 (by decide)
      simp [findCS, hcond]
    | cons d t'' =>
      have hcond : ¬ (c = ')' ∧ d = ';') := by
        rintro ⟨hc, hd⟩
        exact h (isInfixFromStart ⟨t'', by rw [hc, hd]; rfl⟩)
      simp only [List.cons_append, findCS, hcond, if_neg, ite_false, List.append_eq]
      rw [List.cons_append] at ih
      rw [ih h']

/-- bodySplit captures a well-formed body up to the appended terminator. -/
theorem bodySplit_append (b r : List Char) (hb : bodyOK b = true) :
    bodySplit (b ++ ')' :: ';' :: r) = some (b, r) := by
  simp only [bodyOK, Bool.and_eq_true, Bool.not_eq_true', decide_eq_false_iff_not] at hb
  obtain ⟨hne, hinf⟩ := hb
  cases b with
  | nil => simp [List.isEmpty] at hne
  | cons c t =>
    have h' : ¬ ([')', ';'] <:+: t) := fun hx => hinf (List.infix_cons hx)
    simp only [List.cons_append, bodySplit]
    rw [findCS_append t r h']

/-- A column match fails unless the position starts with a quote. -/
theorem matchColAt_no_quote {c : Char} (r : List Char) (hc : ¬ c = '"') :
    matchColAt (c :: r) = none := by
  simp [matchColAt, matchChar, hc]

/-- matchChar succeeds on its own character. -/
theorem matchChar_cons_self (c : Char) (r : List Char) : matchChar c (c :: r) = some r := by
  simp [matchChar]

/-- A column match at a rendered column occurrence. -/
theorem matchColAt_render (n d rest : List Char) (hn : wordOK n = true)
    (hd : wordOK d = true) (hr : headNotWord rest = true) :
    matchColAt (('"' :: n) ++ '"' :: ' ' :: (d ++ rest)) = some (n, d, rest) := by
  simp only [wordOK, Bool.and_eq_true, Bool.not_eq_true'] at hn hd
  obtain ⟨hne, hnall⟩ := hn
  obtain ⟨hde, hdall⟩ := hd
  have hn0 : ¬ n = [] := by
    intro hx
    rw [hx] at hne
    simp at hne
  have hd0 : ¬ d = [] := by
    intro hx
    rw [hx] at hde
    simp at hde
  have hdns : headNotSpace (d ++ rest) = true := by
    cases d with
    | nil => exact absurd rfl hd0
    | cons c d' =>
      simp only [List.all_cons, Bool.and_eq_true] at hdall
      simp [headNotSpace, wordChar_not_space c hdall.1]
  have hsw1 : scanWord (n ++ '"' :: ' ' :: (d ++ rest)) = (n, '"' :: ' ' :: (d ++ rest)) :=
    scanWord_append n ('"' :: ' ' :: (d ++ rest)) hnall (by rfl)
  have hsw2 : scanWord (d ++ rest) = (d, rest) := scanWord_append d rest hdall hr
  have hsp : scanSpace (' ' :: (d ++ rest)) = ([' '], d ++ rest) := by
    have h1 := scanSpace_append [' '] (d ++ rest) (by decide) hdns
    simpa using h1
  simp only [List.cons_append, matchColAt, matchChar_cons_self, hsw1, hsp, hsw2,
    if_neg hn0, if_neg hd0]
  simp

/-- Scanning quote-free text yields no column match. -/
theorem columns_skip (g : List Char) (s : List Char) (hg : g.contains '"' = false) :
    columns (g ++ s) = columns s := by
  induction g with
  | nil => simp
  | cons c g' ih =>
    simp only [List.contains_cons, Bool.or_eq_false_iff, beq_eq_false_iff_ne, ne_eq] at hg
    obtain ⟨hc, hg'⟩ := hg
    rw [List.cons_append, columns_eq_none (matchColAt_no_quote (g' ++ s) (fun hx => hc hx.symm))]
    exact ih hg'

/-- Quote-free text alone yields no columns. -/
theorem columns_quote_free (g : List Char) (hg : g.contains '"' = false) :
    columns g = [] := by
  have h := columns_skip g [] hg
  simpa using h

/-- A rendered column list never starts with a word character. -/
theorem headNotWord_renderCols (cols : List SqlCol) :
    headNotWord (renderCols cols) = true := by
  cases cols with
  | nil => rfl
  | cons c rest => rfl

/-- Prepending a well-formed gap preserves a non-word head. -/
theorem headNotWord_append (g t : List Char) (hg : gapOK g = true)
    (ht : headNotWord t = true) : headNotWord (g ++ t) = true := by
  cases g with
  | nil => simpa using ht
  | cons c g' =>
    simp only [gapOK, Bool.and_eq_true] at hg
    simpa [headNotWord] using hg.2

/-- The engine's column scan over a rendered column list returns exactly the
rendered (name, dtype) pairs, in order. -/
theorem columns_renderCols (cols : List SqlCol) (h : cols.all colOK = true) :
    columns (renderCols cols) = cols.map (fun c => (c.name, c.dtype)) := by
  induction cols with
  | nil => rfl
  | cons col cols ih =>
    simp only [List.all_cons, Bool.and_eq_true] at h
    obtain ⟨hcol, hrest⟩ := h
    simp only [colOK, Bool.and_eq_true] at hcol
    obtain ⟨⟨hn, hd⟩, hg⟩ := hcol
    have hgq : col.gap.contains '"' = false := by
      have hg' := hg
      simp only [gapOK, Bool.and_eq_true, Bool.not_eq_true'] at hg'
      exact hg'.1
    have hm := matchColAt_render col.name col.dtype (col.gap ++ renderCols cols) hn hd
      (headNotWord_append col.gap (renderCols cols) hg (headNotWord_renderCols cols))
    rw [List.cons_append] at hm
    simp only [renderCols, List.append_assoc, List.cons_append]
    rw [columns_eq_some hm]
    simp only []
    rw [columns_skip col.gap (renderCols cols) hgq, ih hrest]
    rfl

/-- The literal is 26 characters long. -/
theorem tableLit_length : tableLit.length = 26 := by decide

/-- The literal starts with C. -/
theorem tableLit_zero : tableLit[0]? = some 'C' := by decide

/-- The letter C occurs in the literal only at position 0 (so the literal has
no nontrivial border and no occurrence can straddle a separator boundary). -/
theorem tableLit_no_inner_C : ∀ i, i < 26 → 1 ≤ i → ¬ tableLit[i]? = some 'C' := by decide

/-- The literal cannot begin inside nonempty text that does not contain it,
even overlapping into a following copy of the literal. -/
theorem tableLit_not_prefix_mid (s t : List Char) (hs : s ≠ [])
    (hinf : ¬ (tableLit <:+: s)) : ¬ (tableLit <+: (s ++ (tableLit ++ t))) := by
  intro hpre
  rcases hpre with ⟨u, hu⟩
  have hslen : 1 ≤ s.length := List.length_pos.mpr hs
  have h1 : (tableLit ++ u).take 26 = (s ++ (tableLit ++ t)).take 26 := by rw [hu]
  rw [List.take_append_eq_append_take, List.take_append_eq_append_take,
    tableLit_length] at h1
  simp only [Nat.sub_self, List.take_zero, List.append_nil] at h1
  rw [List.take_of_length_le (by rw [tableLit_length] : tableLit.length ≤ 26)] at h1
  by_cases hm : 26 ≤ s.length
  · apply hinf
    rw [show (26 : Nat) - s.length = 0 by omega] at h1
    simp only [List.take_zero, List.append_nil] at h1
    refine ⟨[], s.drop 26, ?_⟩
    rw [List.nil_append, h1, List.take_append_drop]
  · push_neg at hm
    rw [List.take_of_length_le (by omega : s.length ≤ 26)] at h1
    have hidx : tableLit[s.length]? = some 'C' := by
      conv_lhs => rw [h1]
      rw [List.getElem?_append_right (le_refl s.length)]
      simp only [Nat.sub_self]
      rw [List.getElem?_take_of_lt (by omega : 0 < 26 - s.length)]
      rw [List.getElem?_append_left (by rw [tableLit_length]; omega)]
      exact tableLit_zero
    exact tableLit_no_inner_C s.length (by omega) hslen hidx

/-- matchTableAt fails where the literal is not a prefix. -/
theorem matchTableAt_no_lit {s : List Char} (h : ¬ (tableLit <+: s)) :
    matchTableAt s = none := by
  have hm : matchLit tableLit s = none := matchLit_none h
  simp [matchTableAt, hm]

/-- The table scan skips separator text standing before a literal. -/
theorem tables_skip (sep t : List Char) (hsep : sepOK sep = true) :
    tables (sep ++ (tableLit ++ t)) = tables (tableLit ++ t) := by
  induction sep with
  | nil => simp
  | cons c sep' ih =>
    have hinf : ¬ (tableLit <:+: (c :: sep')) := by
      simp only [sepOK, Bool.not_eq_true', decide_eq_false_iff_not] at hsep
      exact hsep
    have h' : sepOK sep' = true := by
      simp only [sepOK, Bool.not_eq_true', decide_eq_false_iff_not] at hsep ⊢
      exact fun hx => hsep (List.infix_cons hx)
    have hnp := tableLit_not_prefix_mid (c :: sep') t (by simp) hinf
    rw [List.cons_append] at hnp ⊢
    rw [tables_eq_none (matchTableAt_no_lit hnp)]
    exact ih h'

/-- The table scan of pure separator text is empty. -/
theorem tables_sep_empty (sep : List Char) (hsep : sepOK sep = true) : tables sep = [] := by
  induction sep with
  | nil => rfl
  | cons c sep' ih =>
    have hinf : ¬ (tableLit <:+: (c :: sep')) := by
      simp only [sepOK, Bool.not_eq_true', decide_eq_false_iff_not] at hsep
      exact hsep
    have h' : sepOK sep' = true := by
      simp only [sepOK, Bool.not_eq_true', decide_eq_false_iff_not] at hsep ⊢
      exact fun hx => hsep (List.infix_cons hx)
    rw [tables_eq_none (matchTableAt_no_lit (fun hp => hinf (isInfixFromStart hp)))]
    exact ih h'

/-- A table match at a rendered well-formed statement. -/
theorem matchTableAt_stmt (st : SqlStmt) (rest : List Char) (h : stmtOK st = true) :
    matchTableAt (stmtToChars st ++ rest) = some (st.name, renderBody st, rest) := by
  simp only [stmtOK, Bool.and_eq_true] at h
  obtain ⟨⟨⟨hname, hlead⟩, hcols⟩, hbody⟩ := h
  have hname' := hname
  simp only [wordOK, Bool.and_eq_true, Bool.not_eq_true'] at hname'
  obtain ⟨hne, hnall⟩ := hname'
  have hn0 : ¬ st.name = [] := by
    intro hx
    rw [hx] at hne
    simp at hne
  have hsw : scanWord (st.name ++ '"' :: ' ' :: '(' :: (renderBody st ++ ')' :: ';' :: rest))
      = (st.name, '"' :: ' ' :: '(' :: (renderBody st ++ ')' :: ';' :: rest)) :=
    scanWord_append st.name ('"' :: ' ' :: '(' :: (renderBody st ++ ')' :: ';' :: rest))
      hnall (by rfl)
  have hbs : bodySplit (renderBody st ++ ')' :: ';' :: rest) = some (renderBody st, rest) :=
    bodySplit_append (renderBody st) rest hbody
  have hlit : matchLit tableLit (stmtToChars st ++ rest) = some (stmtTail st ++ rest) := by
    show matchLit tableLit ((tableLit ++ stmtTail st) ++ rest) = _
    rw [List.append_assoc]
    exact matchLit_append _ _
  have hsp1 : scanSpace (' ' :: '"' :: (st.name ++ '"' :: ' ' :: '(' ::
      (renderBody st ++ ')' :: ';' :: rest)))
      = ([' '], '"' :: (st.name ++ '"' :: ' ' :: '(' :: (renderBody st ++ ')' :: ';' :: rest))) := by
    have h1 := scanSpace_append [' ']
      ('"' :: (st.name ++ '"' :: ' ' :: '(' :: (renderBody st ++ ')' :: ';' :: rest)))
      (by decide) (by rfl)
    simpa using h1
  have hsp2 : scanSpace (' ' :: '(' :: (renderBody st ++ ')' :: ';' :: rest))
      = ([' '], '(' :: (renderBody st ++ ')' :: ';' :: rest)) := by
    have h1 := scanSpace_append [' '] ('(' :: (renderBody st ++ ')' :: ';' :: rest))
      (by decide) (by rfl)
    simpa using h1
  unfold matchTableAt
  simp only [hlit, stmtTail, List.cons_append, List.append_assoc, List.nil_append]
  simp only [hsp1, matchChar_cons_self, hsw, if_neg hn0, hsp2, hbs, reduceCtorEq,
    ite_false, if_neg (by simp : ¬ ([' '] : List Char) = [])]

/-- The table scan over separators and well-formed statements returns exactly
the statements' (name, body) captures in order. -/
theorem tables_chain :
    ∀ (items : List (SqlStmt × List Char)) (sep0 : List Char),
      sepOK sep0 = true → itemsOK items = true →
      tables (sep0 ++ chainSQL items)
        = items.map (fun it => (it.1.name, renderBody it.1)) := by
  intro items
  induction items with
  | nil =>
    intro sep0 h0 _
    rw [chainSQL]
    simpa using tables_sep_empty sep0 h0
  | cons it rest ih =>
    intro sep0 h0 hit
    simp only [itemsOK, List.all_cons, Bool.and_eq_true] at hit
    obtain ⟨⟨hstmt, hsep⟩, hrest⟩ := hit
    rw [chainSQL]
    have hm := matchTableAt_stmt it.1 (it.2 ++ chainSQL rest) hstmt
    have hne : stmtToChars it.1 ++ (it.2 ++ chainSQL rest) ≠ [] := by
      intro hx
      have hlen := congrArg List.length hx
      simp [stmtToChars, tableLit_length] at hlen
    rw [show sep0 ++ (stmtToChars it.1 ++ it.2 ++ chainSQL rest)
        = sep0 ++ (tableLit ++ (stmtTail it.1 ++ (it.2 ++ chainSQL rest))) by
      simp [stmtToChars, List.append_assoc]]
    rw [tables_skip sep0 (stmtTail it.1 ++ (it.2 ++ chainSQL rest)) h0]
    rw [show tableLit ++ (stmtTail it.1 ++ (it.2 ++ chainSQL rest))
        = stmtToChars it.1 ++ (it.2 ++ chainSQL rest) by
      simp [stmtToChars, List.append_assoc]]
    rw [tables_eq_some_of_ne hne hm]
    simp only [List.map_cons]
    congr 1
    exact ih it.2 hsep hrest

/-- C6.  For every previous store state and every SQL input made of leading
text, N well-formed `CREATE TABLE IF NOT EXISTS "<identifier>" ( <body> );`
statements and interleaved non-statement text, readSQL discards the previous
LogicalFile collection entirely and produces exactly N LogicalFiles in order
of appearance, each named by its identifier, of type ILF with no description,
and carrying one DataElement {name, dtype} per `"<identifier>" <word>`
occurrence of its body, in order; with zero statements (any literal-free
text, however malformed) the collection comes out empty, and readSQL is a
total function, so no error is raised. -/
theorem readSQL_extracts (a : FPAnalysis) (sep0 : List Char)
    (items : List (SqlStmt × List Char)) (h0 : sepOK sep0 = true)
    (hit : itemsOK items = true) :
    (readSQL (renderSQL sep0 items) a).logicalFiles
      = items.map (fun it => stmtLF it.1) := by
  show ((tables (sep0 ++ chainSQL items)).map _) = _
  rw [tables_chain items sep0 h0 hit, List.map_map]
  refine List.map_congr_left (fun it hmem => ?_)
  have hstmt : stmtOK it.1 = true := by
    have h1 := List.all_eq_true.mp hit it hmem
    simp only [Bool.and_eq_true] at h1
    exact h1.1
  have hc : columns (renderBody it.1) = it.1.cols.map (fun c => (c.name, c.dtype)) := by
    have hs := hstmt
    simp only [stmtOK, Bool.and_eq_true] at hs
    obtain ⟨⟨⟨hname, hlead⟩, hcols⟩, hbody⟩ := hs
    rw [renderBody, columns_skip it.1.lead (renderCols it.1.cols)
      (by simpa [Bool.not_eq_true'] using hlead)]
    exact columns_renderCols it.1.cols hcols
  simp only [Function.comp_apply, stmtLF, hc, List.map_map]
  rfl

/-- C6 witness: one well-formed statement with one column, on a store holding
an older LogicalFile, extracts exactly the one described LogicalFile. -/
theorem readSQL_extracts_witness :
    (readSQL (renderSQL ['\n']
        [(⟨"Tab".data, [' '], [⟨"id".data, "INTEGER".data, []⟩]⟩, ['\n'])])
      ⟨[⟨"Old", LFType.ILF, none, [], none, none⟩], []⟩).logicalFiles
      = [⟨"Tab", LFType.ILF, none, [⟨"id", "INTEGER"⟩], none, none⟩] := by
  have h := readSQL_extracts ⟨[⟨"Old", LFType.ILF, none, [], none, none⟩], []⟩ ['\n']
    [(⟨"Tab".data, [' '], [⟨"id".data, "INTEGER".data, []⟩]⟩, ['\n'])]
    (by decide) (by decide)
  rw [h]
  decide

end FPA
